import Mathlib

/-!
Shallow embedding of the hookmaster repository and proofs about its
specification.  The embedding covers:

* `src/config.rs`   — the flat key/value configuration store (`GitHooksConfig`),
* `src/git_hooks.rs` — repository discovery (`find_git_repositories`, `visit_dirs`),
* `src/commit_msg.rs` — the branch-name driven commit-message formatter,
* `src/hook_manager.rs` — the hook-execution orchestrator (`run_hook`).

Rust strings are modelled as `List Char` internally (with `String` wrappers at
the interfaces).  Character predicates are modelled at ASCII scope, which is
the scope of all hook names, branch-type prefixes and ticket patterns in the
program.  Filesystem trees are modelled by the inductive `FS`; external
effects (process spawning, the git branch query) are passed in explicitly as
values of result types.
-/

namespace Hookmaster

/-! ### Rust string primitives

`trimL` models `str::trim`, `rustLines` models `str::lines` (split on `'\n'`,
a trailing `'\r'` stripped from each line, no empty final line), `replaceChar`
models `str::replace` with a single-character pattern, and `replace2` models
`str::replace` with a two-character pattern (left-to-right, non-overlapping).
-/

def trimLeft (l : List Char) : List Char := l.dropWhile Char.isWhitespace

def trimRight (l : List Char) : List Char := (l.reverse.dropWhile Char.isWhitespace).reverse

def trimL (l : List Char) : List Char := trimRight (trimLeft l)

def rustLines (s : List Char) : List (List Char) :=
  let parts := s.splitOn '\n'
  let parts := if parts.getLast? = some [] then parts.dropLast else parts
  parts.map (fun l => if l.getLast? = some '\r' then l.dropLast else l)

def replaceChar (p : Char) (r : List Char) : List Char → List Char
  | [] => []
  | c :: rest => (if c = p then r else [c]) ++ replaceChar p r rest

def replace2 (p₁ p₂ : Char) (r : List Char) : List Char → List Char
  | [] => []
  | [c] => [c]
  | c₁ :: c₂ :: rest =>
    if c₁ = p₁ ∧ c₂ = p₂ then r ++ replace2 p₁ p₂ r rest
    else c₁ :: replace2 p₁ p₂ r (c₂ :: rest)

/-- Model of `str::find('=')` followed by the two slices `line[..eq_pos]` and
`line[eq_pos + 1..]`: returns `none` when the line has no `'='`. -/
def splitEq : List Char → Option (List Char × List Char)
  | [] => none
  | c :: rest =>
    if c = '=' then some ([], rest)
    else (splitEq rest).map (fun p => (c :: p.1, p.2))

/-! ### Configuration store (`src/config.rs`)

A `GitHooksConfig` is a `HashMap<String, String>`; we model the map as an
association list and its `insert` (last write wins) by `insertKV`.  The
observable behaviour of the map is `lookupKV`.
-/

def lookupKV : List (String × String) → String → Option String
  | [], _ => none
  | (k, v) :: t, k' => if k' = k then some v else lookupKV t k'

def insertKV (l : List (String × String)) (k v : String) : List (String × String) :=
  (k, v) :: l.filter (fun p => p.1 ≠ k)

/-- Errors raised by `GitHooksConfig::parse_toml` (the data carried by the two
`anyhow!` messages: offending key plus 1-based line number, or 1-based line
number plus line content). -/
inductive ConfigError where
  | invalidKey (key : String) (line : Nat)
  | invalidLine (line : Nat) (content : String)
deriving DecidableEq, Repr

/-- Value decoding of `parse_toml`: double-quoted (unescape `\"` then `\\`),
single-quoted (literal), empty, or verbatim. -/
def decodeValue (vp : List Char) : List Char :=
  if vp.head? = some '"' ∧ vp.getLast? = some '"' ∧ 2 ≤ vp.length then
    replace2 '\\' '\\' ['\\'] (replace2 '\\' '"' ['"'] ((vp.drop 1).dropLast))
  else if vp.head? = some '\'' ∧ vp.getLast? = some '\'' ∧ 2 ≤ vp.length then
    (vp.drop 1).dropLast
  else if vp = [] then []
  else vp

/-- One step of `parse_toml`'s loop body on an (untrimmed) line: `none` means
"skip" (blank or comment), otherwise either an error or the key/value pair to
insert.  `n` is the 0-based line index. -/
def parseLineStep (n : Nat) (l : List Char) :
    Option (Except ConfigError (String × String)) :=
  let t := trimL l
  if t.isEmpty ∨ t.head? = some '#' then none
  else
    match splitEq t with
    | some (k0, v0) =>
      let key := trimL k0
      if key.isEmpty ∨ key.contains ' ' then
        some (.error (.invalidKey ⟨key⟩ (n + 1)))
      else
        some (.ok (⟨key⟩, ⟨decodeValue (trimL v0)⟩))
    | none => some (.error (.invalidLine (n + 1) ⟨t⟩))

def parseLines : List (List Char) → Nat → List (String × String) →
    Except ConfigError (List (String × String))
  | [], _, acc => .ok acc
  | l :: rest, n, acc =>
    match parseLineStep n l with
    | none => parseLines rest (n + 1) acc
    | some (.error e) => .error e
    | some (.ok (k, v)) => parseLines rest (n + 1) (insertKV acc k v)

/-- `GitHooksConfig::parse_toml`. -/
def parse_toml (content : String) : Except ConfigError (List (String × String)) :=
  parseLines (rustLines content.toList) 0 []

/-- Escaping used by `to_toml_string`:
`value.replace('\\', r"\\").replace('"', r#"\""#)`. -/
def escapeValue (v : List Char) : List Char :=
  replaceChar '"' ['\\', '"'] (replaceChar '\\' ['\\', '\\'] v)

/-- The serialized line for one entry: `{key} = "{escaped_value}"`. -/
def hookLine (kv : String × String) : List Char :=
  kv.1.toList ++ [' ', '=', ' ', '"'] ++ escapeValue kv.2.toList ++ ['"']

/-- Rust `Vec::join("\n")` on the serialized lines. -/
def joinLines : List (List Char) → List Char
  | [] => []
  | [l] => l
  | l :: rest => l ++ '\n' :: joinLines rest

/-- `GitHooksConfig::to_toml_string`: entries sorted by key, one line each,
joined with `'\n'` plus a trailing `'\n'`. -/
def to_toml_string (cfg : List (String × String)) : String :=
  let sorted := cfg.insertionSort (fun a b => a.1 ≤ b.1)
  ⟨joinLines (sorted.map hookLine) ++ ['\n']⟩

/-- `GitHooksConfig::get_hook_command`. -/
def get_hook_command (cfg : List (String × String)) (name : String) : Option String :=
  lookupKV cfg name

/-- `GitHooksConfig::has_active_hook`: defined and non-blank after trimming. -/
def has_active_hook (cfg : List (String × String)) (name : String) : Bool :=
  match lookupKV cfg name with
  | some cmd => !(trimL cmd.toList).isEmpty
  | none => false

/-! ### Filesystem model and repository discovery (`src/git_hooks.rs`)

A directory tree is the inductive `FS`; paths are lists of component names
from the traversal root.  `is_git_repository` models
`path.join(".git").exists()` (an entry named `.git`, file or directory).
`visit_dirs` models the recursive scan: a subdirectory that is a repository
is pushed; otherwise, if its name does not start with `'.'`, it is recursed
into.  `visit_dirs` on a directory immediately reduces to scanning its
entries (`visitEntries`), and `visitEntry` handles one directory entry of the
Rust `for entry in entries` loop.
-/

inductive FS where
  | file (name : String)
  | dir (name : String) (entries : List FS)
deriving Repr

def FS.name : FS → String
  | .file n => n
  | .dir n _ => n

def FS.isDir : FS → Bool
  | .file _ => false
  | .dir _ _ => true

/-- `is_git_repository`: `path.join(".git").exists()`. -/
def is_git_repository : FS → Bool
  | .file _ => false
  | .dir _ es => es.any (fun e => e.name == ".git")

mutual

def visit_dirs (f : FS) (p : List String) : List (List String) :=
  match f with
  | .file _ => []
  | .dir _ es => visitEntries es p

def visitEntries (es : List FS) (p : List String) : List (List String) :=
  match es with
  | [] => []
  | e :: rest => visitEntry e p ++ visitEntries rest p

def visitEntry (e : FS) (p : List String) : List (List String) :=
  match e with
  | .file _ => []
  | .dir n es =>
    if is_git_repository (.dir n es) then [p ++ [n]]
    else if n.toList.head? = some '.' then []
    else visitEntries es (p ++ [n])

end

/-- `find_git_repositories`: the root itself when it is a repository, then the
recursive scan. -/
def find_git_repositories (root : FS) (rootPath : List String) : List (List String) :=
  (if is_git_repository root then [rootPath] else []) ++ visit_dirs root rootPath

/-! ### Commit message formatter (`src/commit_msg.rs`)

The two regexes of `CommitMessageProcessor` are embedded as direct matchers.

* `ticket_regex = ([A-Z][A-Z0-9]+-\d+)`: `matchTicketAt` matches it anchored
  at a position.  Because `'-'` is outside `[A-Z0-9]` the greedy `[A-Z0-9]+`
  is forced to the maximal run, and likewise `\d+`; `Regex::find` is the
  leftmost such match (`firstTicketL`).
* `branch_cleanup_regex =
  ^(?:feature/|bugfix/|hotfix/|fix/)?[A-Z][A-Z0-9]+-\d+(?:-(.+))?$`:
  `matchCleanup` returns `some g` on a match, where `g` is capture group 1
  (`some desc` or `none`); no two of the four prefixes can match the same
  input, so the optional prefix either strips one of them or nothing, and the
  suffix `(?:-(.+))?$` succeeds only on `""` (no group) or on `"-" ++ d` with
  `d` non-empty and newline-free (`.` does not match `'\n'`).
-/

def isTicketUpper (c : Char) : Bool := decide ('A' ≤ c ∧ c ≤ 'Z')

def isTicketDigit (c : Char) : Bool := decide ('0' ≤ c ∧ c ≤ '9')

def isTicketAlnum (c : Char) : Bool := isTicketUpper c || isTicketDigit c

/-- Anchored match of `[A-Z][A-Z0-9]+-\d+` at the head of the input, returning
the matched token. -/
def matchTicketAt : List Char → Option (List Char)
  | [] => none
  | c :: rest =>
    if isTicketUpper c then
      if (rest.takeWhile isTicketAlnum).isEmpty then none
      else
        match rest.dropWhile isTicketAlnum with
        | x :: rest' =>
          if x = '-' then
            if (rest'.takeWhile isTicketDigit).isEmpty then none
            else some (c :: rest.takeWhile isTicketAlnum ++ '-' :: rest'.takeWhile isTicketDigit)
          else none
        | [] => none
    else none

/-- `self.ticket_regex.find(branch_name)`: the leftmost ticket match. -/
def firstTicketL : List Char → Option (List Char)
  | [] => none
  | c :: rest =>
    match matchTicketAt (c :: rest) with
    | some t => some t
    | none => firstTicketL rest

/-- The four branch-type alternatives of the cleanup regex, in source order. -/
def branchTypes : List (List Char) :=
  ["feature/".toList, "bugfix/".toList, "hotfix/".toList, "fix/".toList]

/-- Strip the optional `(?:feature/|bugfix/|hotfix/|fix/)` prefix (first
alternative that matches, if any). -/
def stripAlt (cs : List Char) : Option (List Char) :=
  match branchTypes.find? (fun pre => pre.isPrefixOf cs) with
  | some pre => some (cs.drop pre.length)
  | none => none

/-- The tail `(?:-(.+))?$` of the cleanup regex applied to what remains after
the ticket: `some none` on empty input (group absent), `some (some d)` on
`'-' :: d` with `d` non-empty and free of `'\n'`, and `none` otherwise. -/
def afterTicket : List Char → Option (Option (List Char))
  | [] => some none
  | '-' :: ds => if ds ≠ [] ∧ ¬ ds.contains '\n' then some (some ds) else none
  | _ => none

/-- Anchored body `[A-Z][A-Z0-9]+-\d+(?:-(.+))?$` of the cleanup regex. -/
def cleanupBody (cs : List Char) : Option (Option (List Char)) :=
  match matchTicketAt cs with
  | none => none
  | some t => afterTicket (cs.drop t.length)

/-- `self.branch_cleanup_regex.captures(branch_name)` restricted to group 1:
`none` when the whole regex does not match. -/
def matchCleanup (cs : List Char) : Option (Option (List Char)) :=
  match stripAlt cs with
  | some rest =>
    match cleanupBody rest with
    | some g => some g
    | none => cleanupBody cs
  | none => cleanupBody cs

/-- `captures(..).and_then(|caps| caps.get(1)).map(|m| m.as_str()).unwrap_or("")`. -/
def cleanupDesc (cs : List Char) : List Char :=
  match matchCleanup cs with
  | some (some d) => d
  | _ => []

/-- Worker for `splitWs`: `acc` is the current word, reversed. -/
def splitWsAux : List Char → List Char → List (List Char)
  | [], acc => if acc.isEmpty then [] else [acc.reverse]
  | c :: rest, acc =>
    if c.isWhitespace then
      if acc.isEmpty then splitWsAux rest [] else acc.reverse :: splitWsAux rest []
    else splitWsAux rest (c :: acc)

/-- Rust `str::split_whitespace`: maximal non-whitespace runs, empties
dropped. -/
def splitWs (cs : List Char) : List (List Char) :=
  splitWsAux cs []

/-- One word of `to_title_case`: first char uppercased, rest lowercased
(ASCII scope of `char::to_uppercase` / `str::to_lowercase`). -/
def capitalizeWord : List Char → List Char
  | [] => []
  | f :: r => f.toUpper :: r.map Char.toLower

/-- `CommitMessageProcessor::to_title_case`. -/
def to_title_case (s : List Char) : List Char :=
  List.intercalate [' '] ((splitWs s).map capitalizeWord)

/-- `CommitMessageProcessor::format_commit_message_from_branch`. -/
def format_commit_message_from_branch (branch : String) : Option String :=
  match firstTicketL branch.toList with
  | none => none
  | some ticket_id =>
    let description := cleanupDesc branch.toList
    if description.isEmpty then some ⟨ticket_id ++ [':', ' ']⟩
    else
      let formatted := to_title_case (replaceChar '_' [' '] (replaceChar '-' [' '] description))
      some ⟨ticket_id ++ [':', ' '] ++ formatted⟩

/-- The "message already has content" test of `process_commit_msg_file`:
some line is non-blank after trimming and does not start with `'#'`
(the `starts_with` check is on the untrimmed line, as in the source). -/
def hasRealContent (current : String) : Bool :=
  !((rustLines current.toList).filter
      (fun line => !(trimL line).isEmpty && !(line.head? == some '#'))).isEmpty

/-- `CommitMessageProcessor::process_commit_msg_file`, with the file content
passed in and the new file content returned; the git branch query is passed
in as its result (`Except` as the query can fail). -/
def process_commit_msg_file (current : String) (branch : Except String String) :
    Except String String :=
  if hasRealContent current then .ok current
  else
    match branch with
    | .error e => .error e
    | .ok branch_name =>
      match format_commit_message_from_branch branch_name with
      | some formatted_msg => .ok (formatted_msg ++ "\n\n" ++ current)
      | none => .ok current

/-! ### Hook orchestrator (`src/hook_manager.rs`)

`run_hook` is modelled with the spawn outcome of the configured shell command
passed in explicitly: `spawned code` is a status whose `success()` is
`code = some 0` (`code = none` models `status.code()` returning `None`, for
which the source reports `-1`), `spawnFailed` is an `io::Error` from
`Command::status`.
-/

inductive SpawnOutcome where
  | spawned (code : Option Int)
  | spawnFailed (msg : String)
deriving DecidableEq, Repr

inductive RunError where
  | notFound (name : String)
  | hookFailed (name : String) (code : Int)
  | execFailed (name : String) (msg : String)
deriving DecidableEq, Repr

/-- The process invocation `run_hook` makes (non-Windows branch:
`sh -c <command>`), `none` when no command is run.  `args` is accepted and
never used, exactly as in the source. -/
def hookInvocation (cfg : List (String × String)) (name : String)
    (args : List String) : Option (String × List String) :=
  if has_active_hook cfg name then
    match get_hook_command cfg name with
    | some command => some ("sh", ["-c", command])
    | none => none
  else none

/-- `HookManager::run_hook` given a loaded configuration and the spawn
outcome.  `args` is accepted and never used, exactly as in the source. -/
def run_hook (cfg : List (String × String)) (name : String) (args : List String)
    (spawn : SpawnOutcome) : Except RunError Unit :=
  if !(has_active_hook cfg name) then .ok ()
  else
    match get_hook_command cfg name with
    | none => .error (.notFound name)
    | some _command =>
      match spawn with
      | .spawned code =>
        if code = some 0 then .ok ()
        else .error (.hookFailed name (code.getD (-1)))
      | .spawnFailed e => .error (.execFailed name e)

/-! ### Derived definitions used in claim statements and proofs -/

/-- Paths produced under a scan root `p`: some strictly deeper path whose
intermediate components (strictly between `p` and the final component) are
all non-hidden (first character not `'.'`). -/
def HiddenFreePath (p q : List String) : Prop :=
  ∃ comps last, q = p ++ comps ++ [last] ∧ ∀ c ∈ comps, c.toList.head? ≠ some '.'

/-- The directory tree of the nested-repository scenario: `root/a` is a
repository and `root/a/b` is a repository nested inside it. -/
def c2Tree : FS :=
  .dir "root" [.dir "a" [.dir ".git" [], .dir "b" [.dir ".git" []]]]

/-- The directory tree of the end-to-end discovery scenario: repositories at
`root/a` and `root/b/c`, and a hidden directory `root/.cache` containing a
repository `root/.cache/repo3`. -/
def c3Tree : FS :=
  .dir "root"
    [.dir "a" [.dir ".git" []],
     .dir "b" [.dir "c" [.dir ".git" []]],
     .dir ".cache" [.dir "repo3" [.dir ".git" []]]]

/-- A string that matches the ticket pattern exactly: one uppercase letter,
one or more uppercase letters or digits, a hyphen, one or more digits —
`[A-Z][A-Z0-9]+-\d+`. -/
def IsTicketTok (t : List Char) : Prop :=
  ∃ c als ds, t = c :: als ++ '-' :: ds ∧ isTicketUpper c = true ∧
    als ≠ [] ∧ (∀ a ∈ als, isTicketAlnum a = true) ∧
    ds ≠ [] ∧ (∀ d ∈ ds, isTicketDigit d = true)

/-- The key-validation failure of one parsed line: `some key` iff the line is
non-blank, not a comment, has an `'='`, and its trimmed key is empty or
contains a space. -/
def lineBadKey (l : List Char) : Option String :=
  if (trimL l).isEmpty ∨ (trimL l).head? = some '#' then none
  else
    match splitEq (trimL l) with
    | some (k0, _) =>
      if (trimL k0).isEmpty ∨ (trimL k0).contains ' ' then some ⟨trimL k0⟩ else none
    | none => none

/-- The missing-`'='` failure of one parsed line: `some content` (the trimmed
line) iff the line is non-blank, not a comment, and has no `'='`. -/
def lineNoEq (l : List Char) : Option String :=
  if (trimL l).isEmpty ∨ (trimL l).head? = some '#' then none
  else
    match splitEq (trimL l) with
    | some _ => none
    | none => some ⟨trimL l⟩

/-- A line the parser accepts (skips or turns into an entry). -/
def LineGood (l : List Char) : Prop := lineBadKey l = none ∧ lineNoEq l = none

instance (l : List Char) : Decidable (LineGood l) := by
  unfold LineGood
  infer_instance

def escChar (c : Char) : List Char :=
  if c = '\\' then ['\\', '\\'] else if c = '"' then ['\\', '"'] else [c]

/-! ### Amended-claim key/value domains (C1) -/

/-- Keys for which serialize/parse round-trips: non-empty, no whitespace
character, no `'='`, and not starting with `'#'`.  (The original claim
demanded only "non-empty, no space"; `=` in a key splits the line at the
wrong place, a leading `#` turns the line into a comment, and non-space
whitespace is either trimmed away or breaks the line structure.) -/
def GoodKey (k : String) : Prop :=
  k.toList ≠ [] ∧ (∀ c ∈ k.toList, ¬ c.isWhitespace = true) ∧
    '=' ∉ k.toList ∧ k.toList.head? ≠ some '#'

/-- Values for which serialize/parse round-trips: single-line (no `'\n'`). -/
def GoodVal (v : String) : Prop := '\n' ∉ v.toList

instance (k : String) : Decidable (GoodKey k) := by
  unfold GoodKey
  infer_instance

instance (v : String) : Decidable (GoodVal v) := by
  unfold GoodVal
  infer_instance

/-! ### Helper lemmas: repository discovery -/

/-- The recursive call `visit_dirs(&path, repos)` made by `visitEntry` on a
non-repository, non-hidden directory is exactly the scan of that directory's
entries, which is what `visitEntry` invokes directly. -/
theorem visit_dirs_dir (n : String) (es : List FS) (p : List String) :
    visit_dirs (.dir n es) p = visitEntries es p := by
  rw [visit_dirs]

mutual

theorem visitEntries_hiddenFree (es : List FS) (p : List String) (q : List String)
    (hq : q ∈ visitEntries es p) : HiddenFreePath p q := by
  match es with
  | [] => simp [visitEntries] at hq
  | e :: rest =>
    rw [visitEntries, List.mem_append] at hq
    rcases hq with hq | hq
    · exact visitEntry_hiddenFree e p q hq
    · exact visitEntries_hiddenFree rest p q hq

theorem visitEntry_hiddenFree (e : FS) (p : List String) (q : List String)
    (hq : q ∈ visitEntry e p) : HiddenFreePath p q := by
  match e with
  | .file n => simp [visitEntry] at hq
  | .dir n es =>
    rw [visitEntry] at hq
    by_cases hrepo : is_git_repository (.dir n es)
    · rw [if_pos hrepo, List.mem_singleton] at hq
      exact ⟨[], n, by simp [hq], by simp⟩
    · rw [if_neg (by simpa using hrepo)] at hq
      by_cases hhid : n.toList.head? = some '.'
      · rw [if_pos hhid] at hq
        cases hq
      · rw [if_neg hhid] at hq
        obtain ⟨comps, last, heq, hcomps⟩ := visitEntries_hiddenFree es (p ++ [n]) q hq
        refine ⟨n :: comps, last, by simp [heq], ?_⟩
        intro c hc
        rcases List.mem_cons.mp hc with rfl | hc
        · exact hhid
        · exact hcomps c hc

end

theorem visit_dirs_hiddenFree (f : FS) (p : List String) (q : List String)
    (hq : q ∈ visit_dirs f p) : HiddenFreePath p q := by
  match f with
  | .file n => simp [visit_dirs] at hq
  | .dir n es => exact visitEntries_hiddenFree es p q hq

theorem visitEntry_subset (e : FS) (es : List FS) (p : List String)
    (he : e ∈ es) (q : List String) (hq : q ∈ visitEntry e p) :
    q ∈ visitEntries es p := by
  induction es with
  | nil => cases he
  | cons e' rest ih =>
    rw [visitEntries, List.mem_append]
    rcases List.mem_cons.mp he with rfl | he
    · exact Or.inl hq
    · exact Or.inr (ih he)

/-! ### Claim theorems: repository discovery (C2, C3, C10) -/

/-- C2, counterexample: in the tree `c2Tree`, `root/a` is a non-hidden
repository with a non-hidden subdirectory `root/a/b` that is also a
repository, yet `find_git_repositories` on the ancestor root returns only
`root/a` — the nested repository is not included, because traversal does not
recurse into a directory already identified as a repository. -/
theorem C2_counterexample :
    is_git_repository (FS.dir "a" [FS.dir ".git" [], FS.dir "b" [FS.dir ".git" []]]) = true ∧
    ("a" : String).toList.head? ≠ some '.' ∧
    is_git_repository (FS.dir "b" [FS.dir ".git" []]) = true ∧
    ("b" : String).toList.head? ≠ some '.' ∧
    find_git_repositories c2Tree ["root"] = [["root", "a"]] ∧
    ["root", "a", "b"] ∉ find_git_repositories c2Tree ["root"] := by
  decide

/-- C2, amended: traversal prunes at repository boundaries — a directory
entry that is itself a repository contributes exactly its own path and is not
descended into; only the scan of a directory's entries (in particular the
root's, whatever the root's repository status) proceeds. -/
theorem C2_repo_entries_prune (n : String) (es : List FS) (p : List String)
    (hrepo : is_git_repository (.dir n es) = true) :
    visitEntry (.dir n es) p = [p ++ [n]] ∧
    visit_dirs (.dir n es) p = visitEntries es p ∧
    find_git_repositories (.dir n es) p =
      (if is_git_repository (.dir n es) then [p] else []) ++ visitEntries es p := by
  refine ⟨?_, visit_dirs_dir n es p, ?_⟩
  · rw [visitEntry, if_pos hrepo]
  · rw [find_git_repositories, visit_dirs_dir]

theorem C2_repo_entries_prune_witness :
    visitEntry (.dir "a" [.dir ".git" [], .dir "b" [.dir ".git" []]]) ["root"] =
      [["root", "a"]] :=
  (C2_repo_entries_prune "a" [.dir ".git" [], .dir "b" [.dir ".git" []]] ["root"] rfl).1

/-- C3: on a tree with repositories at `root/a` and `root/b/c` and a hidden
directory `root/.cache` whose descendants hold a third repository,
`find_git_repositories` returns exactly `root/a` and `root/b/c` and nothing
under `root/.cache`; and in general every path produced by the directory scan
reaches its final component only through non-hidden intermediate directories
(hidden directories are never descended into). -/
theorem C3_end_to_end_discovery :
    (find_git_repositories c3Tree ["root"] = [["root", "a"], ["root", "b", "c"]] ∧
     ["root", ".cache", "repo3"] ∉ find_git_repositories c3Tree ["root"]) ∧
    (∀ (f : FS) (p q : List String), q ∈ visit_dirs f p → HiddenFreePath p q) :=
  ⟨⟨by decide, by decide⟩, visit_dirs_hiddenFree⟩

theorem C3_end_to_end_discovery_witness :
    HiddenFreePath ["root"] ["root", "b", "c"] :=
  C3_end_to_end_discovery.2 c3Tree ["root"] ["root", "b", "c"] (by decide)

/-- C10: a directory entry whose name begins with `.` but which itself
contains a `.git` entry is still included by `find_git_repositories`: the
leading-dot check only guards recursion, not the repository test that adds
the entry. -/
theorem C10_hidden_repo_included (m : String) (es0 : List FS) (p : List String)
    (n : String) (es : List FS)
    (hmem : FS.dir n es ∈ es0)
    (hhid : n.toList.head? = some '.')
    (hrepo : is_git_repository (.dir n es) = true) :
    (p ++ [n]) ∈ find_git_repositories (.dir m es0) p := by
  rw [find_git_repositories, List.mem_append]
  refine Or.inr ?_
  rw [visit_dirs_dir]
  refine visitEntry_subset _ _ _ hmem _ ?_
  rw [visitEntry, if_pos hrepo, List.mem_singleton]

theorem C10_hidden_repo_included_witness :
    (["root"] ++ [".hidden"]) ∈
      find_git_repositories (.dir "root" [.dir ".hidden" [.file ".git"]]) ["root"] :=
  C10_hidden_repo_included "root" [.dir ".hidden" [.file ".git"]] ["root"]
    ".hidden" [.file ".git"] (List.Mem.head _) (by decide) (by decide)

/-! ### Claim theorems: commit message formatter (C5, C8) -/

/-- C5: the three concrete formatting examples — description normalization of
hyphens and underscores to spaces with title-casing, and the trailing
colon-space when the branch has no description. -/
theorem C5_concrete_formats :
    format_commit_message_from_branch "feature/JIRA-123-add-new-feature" =
      some "JIRA-123: Add New Feature" ∧
    format_commit_message_from_branch "hotfix/ABC-789-urgent_fix" =
      some "ABC-789: Urgent Fix" ∧
    format_commit_message_from_branch "feature/JIRA-123" = some "JIRA-123: " := by
  refine ⟨?_, ?_, ?_⟩ <;> rfl

/-- C8: when the commit-message file already contains a line that is
non-blank and does not start with `#`, `process_commit_msg_file` succeeds and
leaves the content unchanged, whatever the branch lookup would return; hence
a second application after the first changes nothing. -/
theorem C8_apply_idempotent (current : String) (b₁ b₂ : Except String String)
    (h : hasRealContent current = true) :
    ∃ out, process_commit_msg_file current b₁ = .ok out ∧
      process_commit_msg_file out b₂ = .ok out ∧ out = current := by
  refine ⟨current, ?_, ?_, rfl⟩ <;> simp [process_commit_msg_file, h]

theorem C8_apply_idempotent_witness :
    ∃ out,
      process_commit_msg_file "fix the bug" (.error "git failed") = .ok out ∧
      process_commit_msg_file out (.ok "feature/JIRA-123") = .ok out ∧
      out = "fix the bug" :=
  C8_apply_idempotent "fix the bug" (.error "git failed") (.ok "feature/JIRA-123") (by decide)

/-! ### Claim theorems: hook orchestrator (C7, C9) -/

/-- C7: `run_hook` is a successful no-op exactly when the hook is inactive
(absent, or blank after trimming — the cases where `has_active_hook` is
false); when the hook is active, the call succeeds on exit code zero, fails
carrying the exit code on a nonzero exit (with `-1` for a signal-terminated
status), and fails carrying the spawn error when the process cannot be
spawned. -/
theorem C7_run_hook_outcomes (cfg : List (String × String)) (name : String)
    (args : List String) :
    (has_active_hook cfg name = false ↔
      get_hook_command cfg name = none ∨
      ∃ cmd, get_hook_command cfg name = some cmd ∧ trimL cmd.toList = []) ∧
    (has_active_hook cfg name = false →
      ∀ spawn, run_hook cfg name args spawn = .ok ()) ∧
    (has_active_hook cfg name = true →
      ∀ code, run_hook cfg name args (.spawned code) =
        if code = some 0 then .ok ()
        else .error (.hookFailed name (code.getD (-1)))) ∧
    (has_active_hook cfg name = true →
      ∀ msg, run_hook cfg name args (.spawnFailed msg) = .error (.execFailed name msg)) := by
  refine ⟨?_, ?_, ?_, ?_⟩
  · cases h : lookupKV cfg name with
    | none => simp [has_active_hook, get_hook_command, h]
    | some cmd => simp [has_active_hook, get_hook_command, h, List.isEmpty_iff]
  · intro h spawn
    simp [run_hook, h]
  · intro h code
    rcases hl : lookupKV cfg name with _ | cmd
    · simp [has_active_hook, hl] at h
    · simp [run_hook, h, get_hook_command, hl]
  · intro h msg
    rcases hl : lookupKV cfg name with _ | cmd
    · simp [has_active_hook, hl] at h
    · simp [run_hook, h, get_hook_command, hl]

theorem C7_run_hook_outcomes_witness :
    run_hook [("pre-commit", "cargo test")] "pre-commit" [] (.spawned (some 3)) =
        .error (.hookFailed "pre-commit" 3) ∧
    run_hook [("commit-msg", " ")] "commit-msg" [] (.spawnFailed "boom") = .ok () := by
  constructor
  · rw [(C7_run_hook_outcomes [("pre-commit", "cargo test")] "pre-commit" []).2.2.1
      (by decide) (some 3)]
    rfl
  · exact (C7_run_hook_outcomes [("commit-msg", " ")] "commit-msg" []).2.1 (by decide) _

/-- C9: `run_hook` never interpolates nor consults its `args` parameter — for
any two argument lists the executed shell invocation and the overall result
are identical (noninterference in `args`). -/
theorem C9_args_noninterference (cfg : List (String × String)) (name : String)
    (args₁ args₂ : List String) (spawn : SpawnOutcome) :
    hookInvocation cfg name args₁ = hookInvocation cfg name args₂ ∧
    run_hook cfg name args₁ spawn = run_hook cfg name args₂ spawn :=
  ⟨rfl, rfl⟩

/-! ### Helper lemmas: the ticket pattern (C4) -/

theorem takeWhile_all_append (p : Char → Bool) (als : List Char) (x : Char)
    (rest : List Char) (hall : ∀ a ∈ als, p a = true) (hx : p x = false) :
    (als ++ x :: rest).takeWhile p = als ∧ (als ++ x :: rest).dropWhile p = x :: rest := by
  induction als with
  | nil => simp [List.takeWhile_cons, List.dropWhile_cons, hx]
  | cons a t ih =>
    have ha := hall a (List.mem_cons_self a t)
    have ih' := ih (fun b hb => hall b (List.mem_cons_of_mem a hb))
    simp [List.takeWhile_cons, List.dropWhile_cons, ha, ih'.1, ih'.2]

theorem matchTicketAt_sound {cs t : List Char} (h : matchTicketAt cs = some t) :
    ∃ r, cs = t ++ r ∧ IsTicketTok t := by
  match cs with
  | [] => simp [matchTicketAt] at h
  | c :: rest =>
    rw [matchTicketAt] at h
    by_cases hu : isTicketUpper c = true
    case neg => rw [if_neg hu] at h; cases h
    rw [if_pos hu] at h
    by_cases hne : (rest.takeWhile isTicketAlnum).isEmpty = true
    case pos => rw [if_pos hne] at h; cases h
    rw [if_neg hne] at h
    cases hdw : rest.dropWhile isTicketAlnum with
    | nil => rw [hdw] at h; cases h
    | cons x rest' =>
      rw [hdw] at h
      simp only at h
      by_cases hx : x = '-'
      case neg => rw [if_neg hx] at h; cases h
      subst hx
      rw [if_pos rfl] at h
      by_cases hds : (rest'.takeWhile isTicketDigit).isEmpty = true
      case pos => rw [if_pos hds] at h; cases h
      rw [if_neg hds, Option.some_inj] at h
      subst h
      refine ⟨rest'.dropWhile isTicketDigit, ?_, ?_⟩
      · have h1 := List.takeWhile_append_dropWhile isTicketAlnum rest
        have h2 := List.takeWhile_append_dropWhile isTicketDigit rest'
        simp only [List.cons_append, List.append_assoc, List.cons.injEq, true_and]
        rw [h2, ← hdw]
        exact h1.symm
      · refine ⟨c, rest.takeWhile isTicketAlnum, rest'.takeWhile isTicketDigit,
          rfl, hu, ?_, ?_, ?_, ?_⟩
        · simpa using hne
        · intro a ha
          exact List.mem_takeWhile_imp ha
        · simpa using hds
        · intro d hd
          exact List.mem_takeWhile_imp hd

theorem matchTicketAt_complete {t : List Char} (ht : IsTicketTok t) (r : List Char) :
    ∃ u, matchTicketAt (t ++ r) = some u := by
  obtain ⟨c, als, ds, rfl, hu, hals, hallals, hds, hallds⟩ := ht
  obtain ⟨d, ds', rfl⟩ := List.exists_cons_of_ne_nil hds
  have hsplit := takeWhile_all_append isTicketAlnum als '-' (d :: ds' ++ r) hallals (by decide)
  have hd : isTicketDigit d = true := hallds d (List.mem_cons_self d ds')
  simp only [List.cons_append, List.append_assoc] at hsplit ⊢
  rw [matchTicketAt, if_pos hu, hsplit.1, hsplit.2]
  rw [if_neg (by simpa using hals)]
  simp [List.takeWhile_cons, hd]

theorem firstTicketL_cons_none {c : Char} {rest : List Char}
    (h : firstTicketL (c :: rest) = none) :
    matchTicketAt (c :: rest) = none ∧ firstTicketL rest = none := by
  rw [firstTicketL] at h
  cases hm : matchTicketAt (c :: rest) with
  | some t => rw [hm] at h; cases h
  | none => rw [hm] at h; exact ⟨rfl, h⟩

theorem firstTicketL_none {cs : List Char} (h : firstTicketL cs = none) :
    ∀ p t q, cs = p ++ t ++ q → ¬ IsTicketTok t := by
  induction cs with
  | nil =>
    intro p t q heq htok
    obtain ⟨c, als, ds, rfl, _⟩ := htok
    simp at heq
  | cons c rest ih =>
    obtain ⟨hm, hrest⟩ := firstTicketL_cons_none h
    intro p t q heq htok
    match p, heq with
    | [], heq =>
      obtain ⟨u, hu⟩ := matchTicketAt_complete htok q
      rw [List.nil_append] at heq
      rw [heq] at hm
      rw [hm] at hu
      cases hu
    | x :: p', heq =>
      rw [List.cons_append, List.cons_append] at heq
      exact ih hrest p' t q (List.cons.injEq .. ▸ heq |>.2) htok

theorem firstTicketL_spec {cs t : List Char} (h : firstTicketL cs = some t) :
    ∃ p q, cs = p ++ t ++ q ∧ IsTicketTok t ∧
      ∀ p' t' q', cs = p' ++ t' ++ q' → IsTicketTok t' → p.length ≤ p'.length := by
  induction cs with
  | nil => simp [firstTicketL] at h
  | cons c rest ih =>
    rw [firstTicketL] at h
    cases hm : matchTicketAt (c :: rest) with
    | some t0 =>
      rw [hm, Option.some_inj] at h
      subst h
      obtain ⟨r, heq, htok⟩ := matchTicketAt_sound hm
      exact ⟨[], r, by simpa using heq, htok, fun _ _ _ _ _ => Nat.zero_le _⟩
    | none =>
      rw [hm] at h
      obtain ⟨p, q, heq, htok, hmin⟩ := ih h
      refine ⟨c :: p, q, by simp [heq], htok, ?_⟩
      intro p' t' q' heq' htok'
      match p', heq' with
      | [], heq' =>
        obtain ⟨u, hu⟩ := matchTicketAt_complete htok' q'
        rw [List.nil_append] at heq'
        rw [heq'] at hm
        rw [hm] at hu
        cases hu
      | x :: p'', heq' =>
        rw [List.cons_append, List.cons_append] at heq'
        have := hmin p'' t' q' (List.cons.injEq .. ▸ heq' |>.2) htok'
        simpa using Nat.succ_le_succ this

theorem format_none_iff_firstTicket_none (s : String) :
    format_commit_message_from_branch s = none ↔ firstTicketL s.toList = none := by
  rw [format_commit_message_from_branch]
  cases h : firstTicketL s.toList with
  | none => simp
  | some t =>
    simp only
    constructor
    · intro hc
      split at hc <;> cases hc
    · intro hc
      cases hc

/-! ### Claim theorem: ticket extraction and formatting (C4) -/

/-- C4: `format_commit_message_from_branch` returns `none` exactly when no
substring of the branch name matches the ticket pattern (one uppercase
letter, one or more uppercase letters or digits, a hyphen, one or more
digits); and when a ticket exists, the result starts with the first (leftmost)
such ticket token followed by `": "`. -/
theorem C4_format_first_ticket (s : String) :
    (format_commit_message_from_branch s = none ↔
      ∀ p t q, s.toList = p ++ t ++ q → ¬ IsTicketTok t) ∧
    (∀ t, firstTicketL s.toList = some t →
      (∃ p q, s.toList = p ++ t ++ q ∧ IsTicketTok t ∧
        ∀ p' t' q', s.toList = p' ++ t' ++ q' → IsTicketTok t' → p.length ≤ p'.length) ∧
      ∃ rest : List Char,
        format_commit_message_from_branch s = some ⟨t ++ ':' :: ' ' :: rest⟩) := by
  constructor
  · rw [format_none_iff_firstTicket_none]
    constructor
    · exact fun h => firstTicketL_none h
    · intro hall
      cases h : firstTicketL s.toList with
      | none => rfl
      | some t =>
        obtain ⟨p, q, heq, htok, _⟩ := firstTicketL_spec h
        exact absurd htok (hall p t q heq)
  · intro t h
    refine ⟨firstTicketL_spec h, ?_⟩
    have h' : firstTicketL s.data = some t := h
    by_cases hd : cleanupDesc s.data = []
    · refine ⟨[], ?_⟩
      simp [format_commit_message_from_branch, h', hd]
    · refine ⟨to_title_case (replaceChar '_' [' '] (replaceChar '-' [' '] (cleanupDesc s.toList))), ?_⟩
      simp [format_commit_message_from_branch, h', hd, List.append_assoc]

theorem C4_format_first_ticket_witness :
    ∃ rest : List Char,
      format_commit_message_from_branch "feature/JIRA-123-add-new-feature" =
        some ⟨['J', 'I', 'R', 'A', '-', '1', '2', '3'] ++ ':' :: ' ' :: rest⟩ :=
  ((C4_format_first_ticket "feature/JIRA-123-add-new-feature").2
    ['J', 'I', 'R', 'A', '-', '1', '2', '3'] (by decide)).2

/-! ### Helper lemmas: parser error reporting (C6) -/

theorem parseLineStep_badKey {l : List Char} {k : String}
    (h : lineBadKey l = some k) (n : Nat) :
    parseLineStep n l = some (.error (.invalidKey k (n + 1))) := by
  rw [lineBadKey] at h
  rw [parseLineStep]
  by_cases hskip : (trimL l).isEmpty = true ∨ (trimL l).head? = some '#'
  · rw [if_pos hskip] at h
    cases h
  · rw [if_neg hskip] at h
    rw [if_neg hskip]
    cases hsp : splitEq (trimL l) with
    | none => rw [hsp] at h; cases h
    | some kv =>
      obtain ⟨k0, v0⟩ := kv
      rw [hsp] at h
      simp only at h ⊢
      by_cases hbad : (trimL k0).isEmpty = true ∨ (trimL k0).contains ' ' = true
      · rw [if_pos hbad] at h
        rw [if_pos hbad]
        rw [Option.some_inj] at h
        rw [h]
      · rw [if_neg hbad] at h
        cases h

theorem parseLineStep_noEq {l : List Char} {c : String}
    (h : lineNoEq l = some c) (n : Nat) :
    parseLineStep n l = some (.error (.invalidLine (n + 1) c)) := by
  rw [lineNoEq] at h
  rw [parseLineStep]
  by_cases hskip : (trimL l).isEmpty = true ∨ (trimL l).head? = some '#'
  · rw [if_pos hskip] at h
    cases h
  · rw [if_neg hskip] at h
    rw [if_neg hskip]
    cases hsp : splitEq (trimL l) with
    | none =>
      rw [hsp] at h
      simp only [Option.some_inj] at h
      rw [← h]
    | some kv =>
      rw [hsp] at h
      cases h

theorem parseLineStep_good {l : List Char} (hg : LineGood l) (n : Nat) :
    parseLineStep n l = none ∨ ∃ kv, parseLineStep n l = some (.ok kv) := by
  obtain ⟨hbk, hne⟩ := hg
  rw [lineBadKey] at hbk
  rw [lineNoEq] at hne
  rw [parseLineStep]
  by_cases hskip : (trimL l).isEmpty = true ∨ (trimL l).head? = some '#'
  · rw [if_pos hskip]
    exact Or.inl rfl
  · rw [if_neg hskip] at hbk hne
    rw [if_neg hskip]
    cases hsp : splitEq (trimL l) with
    | none =>
      rw [hsp] at hne
      cases hne
    | some kv =>
      obtain ⟨k0, v0⟩ := kv
      rw [hsp] at hbk
      simp only at hbk ⊢
      by_cases hbad : (trimL k0).isEmpty = true ∨ (trimL k0).contains ' ' = true
      · rw [if_pos hbad] at hbk
        cases hbk
      · rw [if_neg hbad]
        exact Or.inr ⟨_, rfl⟩

theorem parseLines_error_at (ls : List (List Char)) :
    ∀ (n : Nat) (acc : List (String × String)) (i : Nat) (hi : i < ls.length)
      (f : Nat → ConfigError),
      (∀ j (hj : j < ls.length), j < i → LineGood (ls.get ⟨j, hj⟩)) →
      (∀ m, parseLineStep m (ls.get ⟨i, hi⟩) = some (.error (f m))) →
      parseLines ls n acc = .error (f (n + i)) := by
  induction ls with
  | nil =>
    intro n acc i hi
    exact absurd hi (Nat.not_lt_zero i)
  | cons l rest ih =>
    intro n acc i hi f hgood herr
    cases i with
    | zero =>
      have herr' : parseLineStep n l = some (.error (f n)) := herr n
      rw [parseLines, herr']
      rfl
    | succ i' =>
      have hg : LineGood l :=
        hgood 0 (Nat.succ_pos _) (Nat.succ_pos i')
      have hstep := parseLineStep_good hg n
      have hrec : parseLines rest (n + 1) (match parseLineStep n l with
          | some (.ok (k, v)) => insertKV acc k v
          | _ => acc) = .error (f (n + 1 + i')) := by
        apply ih (n + 1) _ i' (Nat.lt_of_succ_lt_succ hi) f
        · intro j hj hji
          exact hgood (j + 1) (Nat.succ_lt_succ hj) (Nat.succ_lt_succ hji)
        · intro m
          exact herr m
      have hgoal : n + 1 + i' = n + (i' + 1) := by omega
      rcases hstep with hnone | ⟨kv, hok⟩
      · rw [parseLines, hnone]
        rw [hnone] at hrec
        rw [← hgoal]
        exact hrec
      · obtain ⟨k, v⟩ := kv
        rw [parseLines, hok]
        rw [hok] at hrec
        rw [← hgoal]
        exact hrec

/-! ### Claim theorem: parse error reporting (C6) -/

/-- C6: when the first offending line of the input has a key that is empty or
contains a space, `parse_toml` fails with the `ConfigError` naming that key
and the 1-based line number; when the first offending line has no `'='`,
`parse_toml` fails with the `ConfigError` naming the 1-based line number and
the trimmed line content; and whenever any non-blank non-comment line is
offending in either way, `parse_toml` fails. -/
theorem C6_parse_error_reporting (content : String) :
    (∀ i (hi : i < (rustLines content.toList).length) (k : String),
      (∀ j (hj : j < (rustLines content.toList).length), j < i →
        LineGood ((rustLines content.toList).get ⟨j, hj⟩)) →
      lineBadKey ((rustLines content.toList).get ⟨i, hi⟩) = some k →
      parse_toml content = .error (.invalidKey k (i + 1))) ∧
    (∀ i (hi : i < (rustLines content.toList).length) (c : String),
      (∀ j (hj : j < (rustLines content.toList).length), j < i →
        LineGood ((rustLines content.toList).get ⟨j, hj⟩)) →
      lineNoEq ((rustLines content.toList).get ⟨i, hi⟩) = some c →
      parse_toml content = .error (.invalidLine (i + 1) c)) ∧
    ((∃ i, ∃ hi : i < (rustLines content.toList).length,
        ¬ LineGood ((rustLines content.toList).get ⟨i, hi⟩)) →
      ∃ e, parse_toml content = .error e) := by
  refine ⟨?_, ?_, ?_⟩
  · intro i hi k hgood hbk
    have := parseLines_error_at (rustLines content.toList) 0 [] i hi
      (fun m => .invalidKey k (m + 1)) hgood (fun m => parseLineStep_badKey hbk m)
    simpa [parse_toml] using this
  · intro i hi c hgood hne
    have := parseLines_error_at (rustLines content.toList) 0 [] i hi
      (fun m => .invalidLine (m + 1) c) hgood (fun m => parseLineStep_noEq hne m)
    simpa [parse_toml] using this
  · intro hex
    obtain ⟨i, hi, hbad⟩ := hex
    have hex' : ∃ j, j < (rustLines content.toList).length ∧
        ¬ LineGood ((rustLines content.toList).getD j []) := by
      refine ⟨i, hi, ?_⟩
      rw [List.getD_eq_get _ _ hi]
      exact hbad
    classical
    have hfind := Nat.find_spec hex'
    set i₀ := Nat.find hex' with hi₀
    obtain ⟨hlen, hbad₀⟩ := hfind
    rw [List.getD_eq_get _ _ hlen] at hbad₀
    have hgood : ∀ j (hj : j < (rustLines content.toList).length), j < i₀ →
        LineGood ((rustLines content.toList).get ⟨j, hj⟩) := by
      intro j hj hji
      have := Nat.find_min hex' hji
      rw [not_and] at this
      have := this hj
      rw [List.getD_eq_get _ _ hj] at this
      exact not_not.mp this
    by_cases hbk : lineBadKey ((rustLines content.toList).get ⟨i₀, hlen⟩) = none
    · have hne : lineNoEq ((rustLines content.toList).get ⟨i₀, hlen⟩) ≠ none := by
        intro hne
        exact hbad₀ ⟨hbk, hne⟩
      obtain ⟨c, hc⟩ := Option.ne_none_iff_exists'.mp hne
      refine ⟨.invalidLine (i₀ + 1) c, ?_⟩
      have := parseLines_error_at (rustLines content.toList) 0 [] i₀ hlen
        (fun m => .invalidLine (m + 1) c) hgood (fun m => parseLineStep_noEq hc m)
      simpa [parse_toml] using this
    · obtain ⟨k, hk⟩ := Option.ne_none_iff_exists'.mp hbk
      refine ⟨.invalidKey k (i₀ + 1), ?_⟩
      have := parseLines_error_at (rustLines content.toList) 0 [] i₀ hlen
        (fun m => .invalidKey k (m + 1)) hgood (fun m => parseLineStep_badKey hk m)
      simpa [parse_toml] using this

theorem C6_parse_error_reporting_witness :
    parse_toml "ok = \"1\"\nbad key = \"x\"" = .error (.invalidKey "bad key" 2) ∧
    parse_toml "nofoo" = .error (.invalidLine 1 "nofoo") := by
  constructor
  · exact (C6_parse_error_reporting _).1 1 (by decide) "bad key"
      (by
        intro j hj hj1
        have hj0 : j = 0 := by omega
        subst hj0
        exact (by decide : LineGood ("ok = \"1\"".toList)))
      (by decide)
  · exact (C6_parse_error_reporting _).2.1 0 (by decide) "nofoo"
      (by
        intro j hj hj0
        exact absurd hj0 (Nat.not_lt_zero j))
      (by decide)

/-! ### Helper lemmas: value escaping round-trip (C1)

`escapeValue` is the per-character homomorphism `escChar`
(`\ ↦ \\`, `" ↦ \"`, other characters unchanged); decoding first replaces
`\"` by `"` and then `\\` by `\`, left-to-right and non-overlapping, exactly
as the two `str::replace` calls of `parse_toml` do.
-/

theorem replaceChar_append (p : Char) (r : List Char) (l₁ l₂ : List Char) :
    replaceChar p r (l₁ ++ l₂) = replaceChar p r l₁ ++ replaceChar p r l₂ := by
  induction l₁ with
  | nil => rfl
  | cons c t ih => simp [replaceChar, ih, List.append_assoc]

theorem escapeValue_nil : escapeValue [] = [] := rfl

theorem escapeValue_cons (c : Char) (v : List Char) :
    escapeValue (c :: v) = escChar c ++ escapeValue v := by
  rw [escapeValue, escChar]
  by_cases h1 : c = '\\'
  · subst h1
    simp [replaceChar, replaceChar_append, escapeValue]
  · by_cases h2 : c = '"'
    · subst h2
      simp [replaceChar, replaceChar_append, escapeValue]
    · simp [replaceChar, replaceChar_append, escapeValue, h1, h2]

theorem mem_escapeValue {c : Char} {v : List Char} (h : c ∈ escapeValue v) :
    c ∈ v ∨ c = '\\' ∨ c = '"' := by
  induction v with
  | nil => cases h
  | cons d t ih =>
    rw [escapeValue_cons, List.mem_append] at h
    rcases h with h | h
    · rw [escChar] at h
      split at h
      · rcases List.mem_cons.mp h with rfl | h
        · exact Or.inr (Or.inl rfl)
        · rcases List.mem_singleton.mp h with rfl
          exact Or.inr (Or.inl rfl)
      · split at h
        · rcases List.mem_cons.mp h with rfl | h
          · exact Or.inr (Or.inl rfl)
          · rcases List.mem_singleton.mp h with rfl
            exact Or.inr (Or.inr rfl)
        · rcases List.mem_singleton.mp h with rfl
          exact Or.inl (List.mem_cons_self _ _)
    · rcases ih h with h | h
      · exact Or.inl (List.mem_cons_of_mem _ h)
      · exact Or.inr h

theorem replace2_cons_nomatch {p₁ : Char} {c : Char} (h : c ≠ p₁)
    (p₂ : Char) (r l : List Char) :
    replace2 p₁ p₂ r (c :: l) = c :: replace2 p₁ p₂ r l := by
  cases l with
  | nil => rfl
  | cons d t => simp [replace2, h]

theorem replace2_cons₂_nomatch {p₂ : Char} {c₂ : Char} (h : c₂ ≠ p₂)
    (p₁ : Char) (r : List Char) (c₁ : Char) (l : List Char) :
    replace2 p₁ p₂ r (c₁ :: c₂ :: l) = c₁ :: replace2 p₁ p₂ r (c₂ :: l) := by
  simp [replace2, h]

theorem replace2_cons₂_match (p₁ p₂ : Char) (r l : List Char) :
    replace2 p₁ p₂ r (p₁ :: p₂ :: l) = r ++ replace2 p₁ p₂ r l := by
  simp [replace2]

theorem escChar_bs : escChar '\\' = ['\\', '\\'] := rfl

theorem escChar_quote : escChar '"' = ['\\', '"'] := rfl

theorem escChar_other {c : Char} (h1 : c ≠ '\\') (h2 : c ≠ '"') : escChar c = [c] := by
  rw [escChar, if_neg h1, if_neg h2]

theorem unescapeQuote_bs_cons (v : List Char) :
    replace2 '\\' '"' ['"'] ('\\' :: escapeValue v) =
      '\\' :: replace2 '\\' '"' ['"'] (escapeValue v) := by
  cases v with
  | nil => rfl
  | cons c t =>
    by_cases h1 : c = '\\'
    · subst h1
      rw [escapeValue_cons, escChar_bs, List.cons_append, List.cons_append]
      rw [replace2_cons₂_nomatch (by decide)]
    · by_cases h2 : c = '"'
      · subst h2
        rw [escapeValue_cons, escChar_quote, List.cons_append, List.cons_append]
        rw [replace2_cons₂_nomatch (by decide), replace2_cons₂_match]
      · rw [escapeValue_cons, escChar_other h1 h2, List.cons_append, List.nil_append]
        rw [replace2_cons₂_nomatch h2]

theorem unescapeQuote_escape (v : List Char) :
    replace2 '\\' '"' ['"'] (escapeValue v) = replaceChar '\\' ['\\', '\\'] v := by
  induction v with
  | nil => rfl
  | cons c t ih =>
    by_cases h1 : c = '\\'
    · subst h1
      rw [escapeValue_cons, escChar_bs, List.cons_append, List.cons_append, List.nil_append]
      rw [replace2_cons₂_nomatch (by decide), unescapeQuote_bs_cons, ih]
      simp [replaceChar]
    · by_cases h2 : c = '"'
      · subst h2
        rw [escapeValue_cons, escChar_quote, List.cons_append, List.cons_append, List.nil_append]
        rw [replace2_cons₂_match, ih]
        simp [replaceChar]
      · rw [escapeValue_cons, escChar_other h1 h2, List.cons_append, List.nil_append]
        rw [replace2_cons_nomatch h1, ih]
        simp [replaceChar, h1]

theorem unescapeBs_escapeBs (v : List Char) :
    replace2 '\\' '\\' ['\\'] (replaceChar '\\' ['\\', '\\'] v) = v := by
  induction v with
  | nil => rfl
  | cons c t ih =>
    by_cases h : c = '\\'
    · subst h
      rw [show replaceChar '\\' ['\\', '\\'] ('\\' :: t) =
        '\\' :: '\\' :: replaceChar '\\' ['\\', '\\'] t by simp [replaceChar]]
      rw [replace2_cons₂_match, ih]
      rfl
    · rw [show replaceChar '\\' ['\\', '\\'] (c :: t) =
        c :: replaceChar '\\' ['\\', '\\'] t by simp [replaceChar, h]]
      rw [replace2_cons_nomatch h, ih]

theorem decode_encode (v : List Char) :
    decodeValue ('"' :: escapeValue v ++ ['"']) = v := by
  rw [decodeValue, if_pos]
  · have hdrop : (('"' :: escapeValue v ++ ['"']).drop 1).dropLast = escapeValue v := by
      simp
    rw [hdrop, unescapeQuote_escape, unescapeBs_escapeBs]
  · refine ⟨rfl, ?_, ?_⟩
    · rw [List.getLast?_concat]
    · simp

/-! ### Helper lemmas: trimming and splitting serialized lines (C1) -/

theorem dropWhile_eq_self_of_all {p : Char → Bool} {l : List Char}
    (h : ∀ c ∈ l, p c = false) : l.dropWhile p = l := by
  cases l with
  | nil => rfl
  | cons c t =>
    rw [List.dropWhile_cons, if_neg]
    rw [h c (List.mem_cons_self c t)]
    simp

theorem trimLeft_cons_nonws {c : Char} (hc : ¬ c.isWhitespace = true) (l : List Char) :
    trimLeft (c :: l) = c :: l := by
  rw [trimLeft, List.dropWhile_cons, if_neg hc]

theorem trimRight_concat_nonws {c : Char} (hc : ¬ c.isWhitespace = true)
    (l : List Char) : trimRight (l ++ [c]) = l ++ [c] := by
  rw [trimRight, List.reverse_append]
  rw [show ([c] : List Char).reverse ++ l.reverse = c :: l.reverse from rfl]
  rw [List.dropWhile_cons, if_neg hc, List.reverse_cons, List.reverse_reverse]

theorem trimRight_append_ws_all {l : List Char}
    (h : ∀ c ∈ l, ¬ c.isWhitespace = true) : trimRight (l ++ [' ']) = l := by
  rw [trimRight, List.reverse_append]
  show (List.dropWhile Char.isWhitespace l.reverse).reverse = l
  rw [dropWhile_eq_self_of_all, List.reverse_reverse]
  intro d hd
  rw [Bool.eq_false_iff]
  exact h d (List.mem_reverse.mp hd)

theorem trimL_key_space {key : List Char} (hk : ∀ c ∈ key, ¬ c.isWhitespace = true) :
    trimL (key ++ [' ']) = key := by
  cases key with
  | nil => rfl
  | cons c t =>
    have hc := hk c (List.mem_cons_self c t)
    have h1 : trimLeft ((c :: t) ++ [' ']) = (c :: t) ++ [' '] :=
      trimLeft_cons_nonws hc (t ++ [' '])
    rw [trimL, h1]
    exact trimRight_append_ws_all hk

theorem trimL_quoted (w : List Char) :
    trimL (' ' :: '"' :: w ++ ['"']) = '"' :: w ++ ['"'] := by
  have h1 : trimLeft (' ' :: '"' :: w ++ ['"']) = '"' :: w ++ ['"'] := rfl
  rw [trimL, h1]
  exact trimRight_concat_nonws (by decide) ('"' :: w)

theorem trimL_hookLine {key : List Char} (hne : key ≠ [])
    (hk : ∀ c ∈ key, ¬ c.isWhitespace = true) (w : List Char) :
    trimL (key ++ [' ', '=', ' ', '"'] ++ w ++ ['"']) =
      key ++ [' ', '=', ' ', '"'] ++ w ++ ['"'] := by
  obtain ⟨c, t, rfl⟩ := List.exists_cons_of_ne_nil hne
  have hc := hk c (List.mem_cons_self c t)
  have h1 : trimLeft ((c :: t) ++ [' ', '=', ' ', '"'] ++ w ++ ['"']) =
      (c :: t) ++ [' ', '=', ' ', '"'] ++ w ++ ['"'] :=
    trimLeft_cons_nonws hc (t ++ [' ', '=', ' ', '"'] ++ w ++ ['"'])
  rw [trimL, h1]
  exact trimRight_concat_nonws (by decide) ((c :: t) ++ [' ', '=', ' ', '"'] ++ w)

theorem splitEq_append {pre : List Char} (h : '=' ∉ pre) (suf : List Char) :
    splitEq (pre ++ '=' :: suf) = some (pre, suf) := by
  induction pre with
  | nil => simp [splitEq]
  | cons c t ih =>
    have hc : c ≠ '=' := fun hc => h (hc ▸ List.mem_cons_self c t)
    rw [List.cons_append, splitEq, if_neg hc,
      ih (fun hm => h (List.mem_cons_of_mem c hm))]
    rfl

theorem parseLineStep_hookLine (n : Nat) (k v : String)
    (hk : GoodKey k) (hv : GoodVal v) :
    parseLineStep n (hookLine (k, v)) = some (.ok (k, v)) := by
  obtain ⟨hne, hws, heq, hhash⟩ := hk
  rw [parseLineStep, hookLine]
  simp only
  rw [trimL_hookLine hne hws (escapeValue v.toList)]
  obtain ⟨c, t, hct⟩ := List.exists_cons_of_ne_nil hne
  have hhead : c ≠ '#' := by
    rw [hct] at hhash
    simpa using hhash
  have hskip : ¬ ((k.toList ++ [' ', '=', ' ', '"'] ++ escapeValue v.toList ++ ['"']).isEmpty = true ∨
      (k.toList ++ [' ', '=', ' ', '"'] ++ escapeValue v.toList ++ ['"']).head? = some '#') := by
    rw [hct]
    push_neg
    refine ⟨by simp, ?_⟩
    simp [hhead]
  rw [if_neg hskip]
  have hsplit : splitEq (k.toList ++ [' ', '=', ' ', '"'] ++ escapeValue v.toList ++ ['"']) =
      some (k.toList ++ [' '], ' ' :: '"' :: escapeValue v.toList ++ ['"']) := by
    have hshape : k.toList ++ [' ', '=', ' ', '"'] ++ escapeValue v.toList ++ ['"'] =
        (k.toList ++ [' ']) ++ '=' :: (' ' :: '"' :: escapeValue v.toList ++ ['"']) := by
      simp [List.append_assoc]
    rw [hshape]
    refine splitEq_append ?_ _
    intro hm
    rcases List.mem_append.mp hm with hm | hm
    · exact heq hm
    · simp at hm
  rw [hsplit]
  simp only
  rw [trimL_key_space hws]
  have hbad : ¬ (k.toList.isEmpty = true ∨ k.toList.contains ' ' = true) := by
    push_neg
    refine ⟨by simpa [List.isEmpty_iff] using hne, ?_⟩
    intro hc
    exact hws ' ' (List.mem_of_elem_eq_true hc) (by decide)
  rw [if_neg hbad]
  rw [trimL_quoted (escapeValue v.toList)]
  rw [decode_encode]
  rfl

/-! ### Helper lemmas: line structure of the serialized text (C1) -/

theorem splitOn_append_newline {l : List Char} (h : '\n' ∉ l) (r : List Char) :
    List.splitOn '\n' (l ++ '\n' :: r) = l :: List.splitOn '\n' r := by
  show List.splitOnP (· == '\n') (l ++ '\n' :: r) = l :: List.splitOnP (· == '\n') r
  refine List.splitOnP_first (fun c => c == '\n') l ?_ '\n' (by simp) r
  intro x hx
  simp only [beq_iff_eq]
  exact fun hxe => h (hxe ▸ hx)

theorem splitOn_joinLines :
    ∀ (ls : List (List Char)), (∀ l ∈ ls, '\n' ∉ l) → ls ≠ [] →
      List.splitOn '\n' (joinLines ls ++ ['\n']) = ls ++ [[]]
  | [], _, hne => absurd rfl hne
  | [l], hnl, _ => by
    rw [show joinLines [l] ++ ['\n'] = l ++ '\n' :: [] from rfl]
    rw [splitOn_append_newline (hnl l (List.mem_singleton.mpr rfl))]
    rfl
  | l :: l' :: rest, hnl, _ => by
    rw [show joinLines (l :: l' :: rest) ++ ['\n'] =
        l ++ '\n' :: (joinLines (l' :: rest) ++ ['\n']) by
      rw [joinLines]
      · simp [List.append_assoc]
      · simp]
    rw [splitOn_append_newline (hnl l (List.mem_cons_self _ _))]
    rw [splitOn_joinLines (l' :: rest) (fun x hx => hnl x (List.mem_cons_of_mem _ hx))
      (List.cons_ne_nil _ _)]
    rfl

theorem rustLines_joinLines (ls : List (List Char)) (hnl : ∀ l ∈ ls, '\n' ∉ l)
    (hcr : ∀ l ∈ ls, l.getLast? ≠ some '\r') (hne : ls ≠ []) :
    rustLines (joinLines ls ++ ['\n']) = ls := by
  simp only [rustLines]
  rw [splitOn_joinLines ls hnl hne]
  rw [List.getLast?_concat, if_pos rfl, List.dropLast_concat]
  have : ∀ l ∈ ls, (if l.getLast? = some '\r' then l.dropLast else l) = id l :=
    fun l hl => by rw [if_neg (hcr l hl)]; rfl
  rw [List.map_congr_left this, List.map_id]

/-- There is no `'\n'` in a serialized line: keys have no whitespace, the
fixed characters are not `'\n'`, and escaping only introduces `'\\'` and
`'"'`. -/
theorem hookLine_no_newline (kv : String × String) (hk : GoodKey kv.1)
    (hv : GoodVal kv.2) : '\n' ∉ hookLine kv := by
  obtain ⟨k, v⟩ := kv
  obtain ⟨_, hws, _, _⟩ := hk
  rw [hookLine]
  intro hm
  rcases List.mem_append.mp hm with hm | hm
  · rcases List.mem_append.mp hm with hm | hm
    · rcases List.mem_append.mp hm with hm | hm
      · exact hws '\n' hm (by decide)
      · simp at hm
    · rcases mem_escapeValue hm with hm | hm | hm
      · exact hv hm
      · cases hm
      · cases hm
  · simp at hm

theorem hookLine_getLast (kv : String × String) : (hookLine kv).getLast? = some '"' := by
  rw [hookLine, List.getLast?_concat]

/-! ### Helper lemmas: association-list lookups (C1) -/

theorem lookupKV_insertKV (l : List (String × String)) (k v k' : String) :
    lookupKV (insertKV l k v) k' = if k' = k then some v else lookupKV l k' := by
  rw [insertKV, lookupKV]
  by_cases h : k' = k
  · rw [if_pos h, if_pos h]
  · rw [if_neg h, if_neg h]
    induction l with
    | nil => rfl
    | cons p t ih =>
      obtain ⟨a, b⟩ := p
      by_cases ha : a = k
      · subst ha
        rw [show List.filter (fun p => decide (p.1 ≠ a)) ((a, b) :: t) =
            List.filter (fun p => decide (p.1 ≠ a)) t by simp [List.filter]]
        rw [ih, lookupKV, if_neg h]
      · rw [show List.filter (fun p => decide (p.1 ≠ k)) ((a, b) :: t) =
            (a, b) :: List.filter (fun p => decide (p.1 ≠ k)) t by simp [List.filter, ha]]
        rw [lookupKV, lookupKV]
        by_cases hk' : k' = a
        · rw [if_pos hk', if_pos hk']
        · rw [if_neg hk', if_neg hk', ih]

theorem lookupKV_eq_none_iff (l : List (String × String)) (k : String) :
    lookupKV l k = none ↔ k ∉ l.map Prod.fst := by
  induction l with
  | nil => simp [lookupKV]
  | cons p t ih =>
    obtain ⟨a, b⟩ := p
    rw [lookupKV]
    by_cases h : k = a
    · subst h
      simp
    · rw [if_neg h]
      simp [ih, h]

theorem lookupKV_eq_some_iff (l : List (String × String))
    (hnd : (l.map Prod.fst).Nodup) (k v : String) :
    lookupKV l k = some v ↔ (k, v) ∈ l := by
  induction l with
  | nil => simp [lookupKV]
  | cons p t ih =>
    obtain ⟨a, b⟩ := p
    rw [List.map_cons, List.nodup_cons] at hnd
    rw [lookupKV]
    by_cases h : k = a
    · subst h
      rw [if_pos rfl]
      simp only [Option.some_inj, List.mem_cons, Prod.mk.injEq, true_and]
      constructor
      · intro hv
        exact Or.inl hv.symm
      · rintro (rfl | hm)
        · rfl
        · exact absurd (List.mem_map_of_mem Prod.fst hm) hnd.1
    · rw [if_neg h, ih hnd.2]
      simp [h, Prod.ext_iff]

theorem lookupKV_perm {l₁ l₂ : List (String × String)} (hp : l₁.Perm l₂)
    (hnd : (l₁.map Prod.fst).Nodup) (k : String) :
    lookupKV l₁ k = lookupKV l₂ k := by
  have hnd₂ : (l₂.map Prod.fst).Nodup := ((hp.map Prod.fst).nodup_iff).mp hnd
  cases h : lookupKV l₁ k with
  | some v =>
    rw [(lookupKV_eq_some_iff l₂ hnd₂ k v).mpr
      (hp.mem_iff.mp ((lookupKV_eq_some_iff l₁ hnd k v).mp h))]
  | none =>
    rw [(lookupKV_eq_none_iff l₂ k).mpr
      (fun hm => (lookupKV_eq_none_iff l₁ k).mp h ((hp.map Prod.fst).mem_iff.mpr hm))]

theorem lookupKV_foldl_insert (L : List (String × String)) :
    ∀ (acc : List (String × String)), (L.map Prod.fst).Nodup → ∀ k,
      lookupKV (L.foldl (fun a kv => insertKV a kv.1 kv.2) acc) k =
        (lookupKV L k).or (lookupKV acc k) := by
  induction L with
  | nil =>
    intro acc _ k
    rw [List.foldl_nil, lookupKV]
    rfl
  | cons p T ih =>
    intro acc hnd k
    obtain ⟨k₀, v₀⟩ := p
    rw [List.map_cons, List.nodup_cons] at hnd
    rw [List.foldl_cons, ih _ hnd.2 k, lookupKV]
    by_cases h : k = k₀
    · subst h
      rw [if_pos rfl]
      rw [(lookupKV_eq_none_iff T k).mpr hnd.1]
      rw [lookupKV_insertKV, if_pos rfl]
      rfl
    · rw [if_neg h, lookupKV_insertKV, if_neg h]

/-! ### Helper lemma: parsing the serialized lines (C1) -/

theorem parseLines_hookLines (L : List (String × String)) :
    ∀ (n : Nat) (acc : List (String × String)),
      (∀ kv ∈ L, GoodKey kv.1) → (∀ kv ∈ L, GoodVal kv.2) →
      parseLines (L.map hookLine) n acc =
        .ok (L.foldl (fun a kv => insertKV a kv.1 kv.2) acc) := by
  induction L with
  | nil =>
    intro n acc _ _
    rfl
  | cons kv T ih =>
    intro n acc hk hv
    obtain ⟨k, v⟩ := kv
    rw [List.map_cons, parseLines,
      parseLineStep_hookLine n k v (hk (k, v) (List.mem_cons_self _ _))
        (hv (k, v) (List.mem_cons_self _ _))]
    show parseLines (List.map hookLine T) (n + 1) (insertKV acc k v) =
      Except.ok (List.foldl (fun a kv => insertKV a kv.1 kv.2) acc ((k, v) :: T))
    rw [ih (n + 1) (insertKV acc k v)
      (fun x hx => hk x (List.mem_cons_of_mem _ hx))
      (fun x hx => hv x (List.mem_cons_of_mem _ hx))]
    rfl

/-! ### Claim theorems: serialize/parse round trip (C1) -/

/-- C1, counterexample: the key `"#x"` is non-empty and contains no space, so
the claim's hypotheses admit it; yet its serialized line starts with `#`, so
parsing the serialized configuration skips it as a comment and yields the
empty mapping instead of reproducing `#x ↦ v`. -/
theorem C1_counterexample :
    ("#x" : String).toList ≠ [] ∧
    ("#x" : String).toList.contains ' ' = false ∧
    to_toml_string [("#x", "v")] = "#x = \"v\"\n" ∧
    parse_toml (to_toml_string [("#x", "v")]) = .ok [] ∧
    lookupKV [("#x", "v")] "#x" = some "v" := by
  refine ⟨by decide, by decide, rfl, rfl, by decide⟩

/-- C1, amended: for every configuration with distinct keys, where each key
is non-empty, contains no whitespace, contains no `'='`, and does not start
with `'#'`, and each value is a single-line string (arbitrary otherwise:
backslashes, double quotes, single quotes, the empty string), parsing the
serialized text reproduces exactly the original key-to-command mapping. -/
theorem C1_roundtrip (cfg : List (String × String))
    (hnd : (cfg.map Prod.fst).Nodup)
    (hk : ∀ kv ∈ cfg, GoodKey kv.1) (hv : ∀ kv ∈ cfg, GoodVal kv.2) :
    ∃ m, parse_toml (to_toml_string cfg) = .ok m ∧
      ∀ name, lookupKV m name = lookupKV cfg name := by
  have hperm : (cfg.insertionSort (fun a b => a.1 ≤ b.1)).Perm cfg :=
    List.perm_insertionSort _ cfg
  have hknd : ((cfg.insertionSort (fun a b => a.1 ≤ b.1)).map Prod.fst).Nodup :=
    ((hperm.map Prod.fst).nodup_iff).mpr hnd
  have hks : ∀ kv ∈ cfg.insertionSort (fun a b => a.1 ≤ b.1), GoodKey kv.1 :=
    fun kv hm => hk kv (hperm.subset hm)
  have hvs : ∀ kv ∈ cfg.insertionSort (fun a b => a.1 ≤ b.1), GoodVal kv.2 :=
    fun kv hm => hv kv (hperm.subset hm)
  cases hsrt : cfg.insertionSort (fun a b => a.1 ≤ b.1) with
  | nil =>
    have hcfg : cfg = [] := (hsrt ▸ hperm).symm.eq_nil
    subst hcfg
    exact ⟨[], rfl, fun name => rfl⟩
  | cons hd tl =>
    rw [hsrt] at hperm hknd hks hvs
    have hlines : rustLines (to_toml_string cfg).toList = (hd :: tl).map hookLine := by
      have hstr : (to_toml_string cfg).toList = joinLines ((hd :: tl).map hookLine) ++ ['\n'] := by
        rw [to_toml_string]
        simp only [hsrt]
        rfl
      rw [hstr]
      refine rustLines_joinLines _ ?_ ?_ (by simp)
      · intro l hl
        obtain ⟨kv, hkv, rfl⟩ := List.mem_map.mp hl
        exact hookLine_no_newline kv (hks kv hkv) (hvs kv hkv)
      · intro l hl
        obtain ⟨kv, hkv, rfl⟩ := List.mem_map.mp hl
        rw [hookLine_getLast]
        decide
    refine ⟨(hd :: tl).foldl (fun a kv => insertKV a kv.1 kv.2) [], ?_, ?_⟩
    · rw [parse_toml, hlines]
      exact parseLines_hookLines (hd :: tl) 0 [] hks hvs
    · intro name
      rw [lookupKV_foldl_insert (hd :: tl) [] hknd name]
      rw [show lookupKV [] name = none from rfl]
      rw [Option.or_none]
      exact lookupKV_perm hperm hknd name

theorem C1_roundtrip_witness :
    ∃ m, parse_toml (to_toml_string [("pre-commit", "cargo \"fmt\" && echo x\\y"), ("a", "")]) =
        .ok m ∧
      ∀ name, lookupKV m name =
        lookupKV [("pre-commit", "cargo \"fmt\" && echo x\\y"), ("a", "")] name :=
  C1_roundtrip [("pre-commit", "cargo \"fmt\" && echo x\\y"), ("a", "")]
    (by decide) (by decide) (by decide)

end Hookmaster
